import Mathlib

/-!
Shallow embedding of `src/gmprocess/corner_frequencies.py`: the constant and
SNR corner-frequency pickers and the `fft_smooth` spectral helper.

Spectra are modelled over `ℚ`.  The ratio test in the SNR scan divides two
smoothed spectral values with numpy float semantics, so division is embedded
into an extended-value type `FVal` that distinguishes finite values, the two
infinities, and NaN, exactly as IEEE division of finite operands produces
them.  External library calls (obspy's taper, numpy's `rfft`, and
Konno-Ohmachi smoothing) are parameters of the development, gathered in the
`DSP` structure; everything the repository itself computes is translated
directly from the source.
-/

namespace GM

/-- IEEE-style extended value produced by dividing two finite floats. -/
inductive FVal where
  | fin (q : ℚ)
  | posInf
  | negInf
  | nan
deriving DecidableEq

/-- Division of two finite values with numpy/IEEE semantics: a nonzero
denominator gives a finite quotient; a zero denominator gives `+inf`, `-inf`
or `NaN` according to the sign of the numerator.  This embeds the unguarded
`sig_spec_smooth[idx] / noise_spec_smooth[idx]` of the source. -/
def fdiv (a b : ℚ) : FVal :=
  if b = 0 then
    if 0 < a then FVal.posInf
    else if a < 0 then FVal.negInf
    else FVal.nan
  else FVal.fin (a / b)

/-- The `ratio >= threshold` test of the source; NaN compares false. -/
def fge (x : FVal) (t : ℚ) : Bool :=
  match x with
  | FVal.fin q => decide (t ≤ q)
  | FVal.posInf => true
  | FVal.negInf => false
  | FVal.nan => false

/-- The `ratio < threshold` test of the source; NaN compares false. -/
def flt (x : FVal) (t : ℚ) : Bool :=
  match x with
  | FVal.fin q => decide (q < t)
  | FVal.posInf => false
  | FVal.negInf => true
  | FVal.nan => false

/-- Modelled from the spec: the guarded ratio the specification prescribes
("treat as ratio = +infinity (always passes threshold)" when the noise
amplitude is 0); compared against the source's unguarded `fdiv`. -/
def specGuardedDiv (a b : ℚ) : FVal :=
  if b = 0 then FVal.posInf else FVal.fin (a / b)

/-- State of the corner scan: the accumulated `lows` and `highs` lists and
the `have_low` flag of the source loop. -/
structure ScanState where
  lows : List ℚ
  highs : List ℚ
  have_low : Bool
deriving DecidableEq

/-- One iteration of the source's `for idx, freq in enumerate(freqs_signal)`
loop body (lines 95-108): outside a band a ratio at or above threshold opens
one, inside a band a ratio below threshold closes it. -/
def scanStep (threshold : ℚ) (sig_minus noise freq : ℚ) (s : ScanState) : ScanState :=
  if s.have_low = false then
    if fge (fdiv sig_minus noise) threshold then
      { s with lows := s.lows ++ [freq], have_low := true }
    else s
  else
    if flt (fdiv sig_minus noise) threshold then
      { s with highs := s.highs ++ [freq], have_low := false }
    else s

/-- Folding the loop body over the (freq, sig, noise) triples. -/
def scanFold (threshold : ℚ) (s : ScanState) : List (ℚ × ℚ × ℚ) → ScanState
  | [] => s
  | p :: rest => scanFold threshold (scanStep threshold p.2.1 p.2.2 p.1 s) rest

/-- The full corner scan of lines 92-108: `sig_minus` is the signal spectrum
after the noise level has been subtracted, `noise` the smoothed noise
spectrum, `freqs` the shared frequency grid. -/
def cornerScan (threshold : ℚ) (sig_minus noise freqs : List ℚ) : ScanState :=
  scanFold threshold (ScanState.mk [] [] false) (freqs.zip (sig_minus.zip noise))

/-- Python's `max` over a nonempty list (`max(freqs_signal)` in the source);
returns 0 on the empty list, which the source never reaches. -/
def listMax : List ℚ → ℚ
  | [] => 0
  | x :: xs => xs.foldl max x

/-- Lines 116-118 / 128-130: if the scan left one more low than high, close
the open band with the maximum grid frequency. -/
def closeHighs (freqs lows highs : List ℚ) : List ℚ :=
  if highs.length < lows.length then highs ++ [listMax freqs] else highs

/-- Lines 120-126 / 132-138: walk the (low, high) pairs and keep the last
pair with `low <= max_low_freq` and `high > min_high_freq`; `none` when no
pair is valid (`found_valid` stays false). -/
def pickValid (max_low_freq min_high_freq : ℚ) (lows highs : List ℚ) : Option (ℚ × ℚ) :=
  (lows.zip highs).foldl
    (fun acc p => if p.1 ≤ max_low_freq ∧ min_high_freq < p.2 then some p else acc)
    none

/-- Lines 110-138: reject when no low was found, otherwise close the open
band and pick a valid pair.  The source duplicates the close-and-pick block
verbatim (lines 116-126 and 128-138); the first pass is kept as the dead
binding `_r1`, the returned value comes from the second pass exactly as
`found_valid`/`low_corner`/`high_corner` do in the source. -/
def scanAndPick (threshold max_low_freq min_high_freq : ℚ)
    (sig_minus noise freqs : List ℚ) : Option (ℚ × ℚ) :=
  let s := cornerScan threshold sig_minus noise freqs
  if s.lows = [] then none
  else
    let highs1 := closeHighs freqs s.lows s.highs
    let _r1 := pickValid max_low_freq min_high_freq s.lows highs1
    let highs2 := closeHighs freqs s.lows highs1
    pickValid max_low_freq min_high_freq s.lows highs2

/-- The `corner_frequencies` record attached under the processing-parameters
key: a `type` discriminator plus the two corner values. -/
structure CF where
  type : String
  highpass : ℚ
  lowpass : ℚ
deriving DecidableEq

/-- A waveform record: identifier (for log messages), sample data, the index
of the noise/signal split, the sampling rate, and the
`corner_frequencies` slot of its processing-parameters map. -/
structure Trace where
  tid : String
  data : List ℚ
  split_idx : ℕ
  sampling_rate : ℚ
  cf : Option CF
deriving DecidableEq

/-- Modelled from the spec: `_update_params` (gmprocess.utils, not under
src/) attaches a stage result to the record's mutable processing-parameters
map, mutating the record in place; functionally, the updated record replaces
the old one in its collection. -/
def _update_params (tr : Trace) (result : CF) : Trace :=
  { tr with cf := some result }

/-- Collected external signal-processing collaborators (obspy taper, numpy
real FFT magnitudes, Konno-Ohmachi smoothing).  `taper l` is the tapered
window, `rfftAbs data n` the magnitudes `abs(np.fft.rfft(data, n))` (length
`n / 2 + 1`), `koSmooth spec freqs b` the smoothed spectrum. -/
structure DSP where
  taper : List ℚ → List ℚ
  rfftAbs : List ℚ → ℕ → List ℚ
  koSmooth : List ℚ → List ℚ → ℚ → List ℚ

/-- Doubling loop computing obspy's `next_pow_2`: `go fuel target acc`
doubles `acc` until it reaches `target`; fuel `target` always suffices. -/
def np2go : ℕ → ℕ → ℕ → ℕ
  | 0, _, acc => acc
  | fuel + 1, target, acc => if target ≤ acc then acc else np2go fuel target (2 * acc)

/-- obspy's `next_pow_2`: the smallest power of two at or above `n`
(for `n ≥ 1`; obspy raises on 0, here the junk value 1 is returned). -/
def next_pow_2 (n : ℕ) : ℕ := np2go n n 1

/-- numpy's `np.fft.rfftfreq nfft (1 / sampling_rate)`: the grid
`k * sampling_rate / nfft` for `k = 0 .. nfft / 2`. -/
def rfftfreq (nfft : ℕ) (sampling_rate : ℚ) : List ℚ :=
  (List.range (nfft / 2 + 1)).map (fun (k : ℕ) => (k : ℚ) * sampling_rate / (nfft : ℚ))

/-- Lines 155-177: magnitude of the real FFT normalized by `nfft`, the
associated frequency grid, and Konno-Ohmachi smoothing with the hardcoded
bandwidth coefficient 20. -/
def fft_smooth (d : DSP) (data : List ℚ) (sampling_rate : ℚ) (nfft : ℕ) :
    List ℚ × List ℚ :=
  let spec := (d.rfftAbs data nfft).map (fun x => x / (nfft : ℚ))
  let freqs := rfftfreq nfft sampling_rate
  (d.koSmooth spec freqs 20, freqs)

/-- Lines 88-148 for one record, after the two smoothed spectra are in hand:
subtract the noise level from the signal spectrum, scan, and either attach
the `snr` result or reject (`none`). -/
def procCurves (threshold max_low_freq min_high_freq : ℚ) (tr : Trace)
    (sig_spec_smooth noise_spec_smooth freqs_signal : List ℚ) : Option Trace :=
  match scanAndPick threshold max_low_freq min_high_freq
      (List.zipWith (· - ·) sig_spec_smooth noise_spec_smooth)
      noise_spec_smooth freqs_signal with
  | some (lo, hi) => some (_update_params tr (CF.mk "snr" lo hi))
  | none => none

/-- Lines 64-148 for one record: split at the stored split index, taper both
windows, choose the FFT size as the max of the two next powers of two,
estimate both smoothed spectra on the shared grid, and run the scan.
`none` means the record is removed from the stream. -/
def procTrace (d : DSP) (threshold max_low_freq min_high_freq : ℚ)
    (tr : Trace) : Option Trace :=
  let noise := d.taper (tr.data.take tr.split_idx)
  let signal := d.taper (tr.data.drop tr.split_idx)
  let nfft := max (next_pow_2 signal.length) (next_pow_2 noise.length)
  let sig_pair := fft_smooth d signal tr.sampling_rate nfft
  let noise_pair := fft_smooth d noise tr.sampling_rate nfft
  procCurves threshold max_low_freq min_high_freq tr sig_pair.1 noise_pair.1 sig_pair.2

/-- The informational message of lines 112 and 150. -/
def logMsg (tr : Trace) : String :=
  "Removing trace: " ++ tr.tid ++ " (failed SNR check)"

/-- The `for tr in st` loop of `snr`, iterating over a snapshot of the
stream's members (obspy's documented robust iteration): returns the
resulting stream and the emitted log messages, in order. -/
def snrGo (d : DSP) (threshold max_low_freq min_high_freq : ℚ) :
    List Trace → List Trace × List String
  | [] => ([], [])
  | tr :: rest =>
    match procTrace d threshold max_low_freq min_high_freq tr with
    | some tr2 =>
      let r := snrGo d threshold max_low_freq min_high_freq rest
      (tr2 :: r.1, r.2)
    | none =>
      let r := snrGo d threshold max_low_freq min_high_freq rest
      (r.1, logMsg tr :: r.2)

/-- Function `snr` of lines 44-152.  The `bandwidth` parameter is accepted exactly as
in the source signature; the source body never reads it. -/
def snr (d : DSP) (st : List Trace)
    (threshold max_low_freq min_high_freq bandwidth : ℚ) :
    List Trace × List String :=
  snrGo d threshold max_low_freq min_high_freq st

/-- Function `constant` of lines 21-41: attach the configured constant corners to
every record. -/
def constant : List Trace → ℚ → ℚ → List Trace
  | [], _, _ => []
  | tr :: rest, highpass, lowpass =>
    _update_params tr (CF.mk "constant" highpass lowpass) :: constant rest highpass lowpass

/-! Concrete fixtures used by the witness theorems. -/

/-- A degenerate DSP environment: identity taper, an all-zero spectrum, and
identity smoothing.  Every ratio is then `0 / 0 = NaN`, so every record
fails the SNR check. -/
def dsp0 : DSP where
  taper := fun l => l
  rfftAbs := fun _ n => List.replicate (n / 2 + 1) 0
  koSmooth := fun s _ _ => s

/-- A record processed with `dsp0` (fails the SNR check). -/
def tr0 : Trace where
  tid := "NZ.WEL.HHZ"
  data := [1, 2, 3, 4]
  split_idx := 2
  sampling_rate := 100
  cf := none

/-- A DSP environment under which short (noise) windows get a weak flat
spectrum and longer (signal) windows a strong one, so the SNR check
passes everywhere on the grid. -/
def dspOK : DSP where
  taper := fun l => l
  rfftAbs := fun data n =>
    if data.length ≤ 2 then List.replicate (n / 2 + 1) 1
    else List.replicate (n / 2 + 1) 100
  koSmooth := fun s _ _ => s

/-- A record processed with `dspOK` (passes the SNR check). -/
def trOK : Trace where
  tid := "NZ.WEL.HHE"
  data := [1, 2, 3, 4, 5, 6]
  split_idx := 2
  sampling_rate := 100
  cf := none

/-- Record `trOK` with the snr corner frequencies it receives under `dspOK`. -/
def trOKres : Trace := _update_params trOK (CF.mk "snr" 0 50)

/-- A bare record for the concrete 11-bin scan scenario. -/
def tr5 : Trace where
  tid := "XX.SC.ENZ"
  data := []
  split_idx := 0
  sampling_rate := 1
  cf := none

/-- The 11-bin frequency grid 0.0 .. 1.0 of the concrete scenario. -/
def freqs11 : List ℚ :=
  [0, 1/10, 2/10, 3/10, 4/10, 5/10, 6/10, 7/10, 8/10, 9/10, 1]

/-- Smoothed signal spectrum of the concrete scenario (noise constant 1, so
signal-minus-noise is 0, 0, 5, 5, 5, 5, 5, 0, 0, 0, 0). -/
def sig11 : List ℚ := [1, 1, 6, 6, 6, 6, 6, 1, 1, 1, 1]

/-- Smoothed noise spectrum of the concrete scenario: constant 1. -/
def noise11 : List ℚ := [1, 1, 1, 1, 1, 1, 1, 1, 1, 1, 1]

/-- Length invariant of the scan state: one more low than high exactly while
inside a band. -/
def lensOK (s : ScanState) : Prop :=
  s.lows.length = s.highs.length + (if s.have_low then 1 else 0)

/-! Helper lemmas. -/

/-- A value that passes the `>= threshold` test fails the `< threshold`
test (in particular NaN fails both). -/
theorem fge_imp_not_flt (x : FVal) (t : ℚ) (h : fge x t = true) : flt x t = false := by
  cases x with
  | fin q =>
    simp only [fge, decide_eq_true_eq] at h
    simp only [flt, decide_eq_false_iff_not, not_lt]
    exact h
  | posInf => rfl
  | negInf => simp [fge] at h
  | nan => simp [fge] at h

/-- The `found_valid` loop is a fold that keeps the last valid pair: it
returns the last element of the valid-filtered list, or the accumulator if
no element is valid. -/
theorem pickfold_eq (P : ℚ × ℚ → Prop) [DecidablePred P] :
    ∀ (l : List (ℚ × ℚ)) (acc : Option (ℚ × ℚ)),
      List.foldl (fun acc p => if P p then some p else acc) acc l
        = Option.or ((l.filter fun p => decide (P p)).getLast?) acc
  | [], acc => by simp [Option.or]
  | p :: rest, acc => by
    rw [List.foldl_cons, pickfold_eq P rest]
    by_cases h : P p
    · have hd : (fun p => decide (P p)) p = true := by simp [h]
      rw [if_pos h, @List.filter_cons_of_pos _ (fun p => decide (P p)) p rest hd]
      cases hr : (rest.filter fun p => decide (P p)).getLast? with
      | none =>
        have hnil : rest.filter (fun p => decide (P p)) = [] := by
          cases hfil : rest.filter fun p => decide (P p) with
          | nil => rfl
          | cons q l =>
            rw [hfil] at hr
            exact absurd hr (by simp)
        rw [hnil]
        rfl
      | some q =>
        have hcons : (p :: rest.filter fun p => decide (P p)).getLast? = some q := by
          cases hfil : rest.filter fun p => decide (P p) with
          | nil => simp [hfil] at hr
          | cons q0 l =>
            rw [hfil] at hr
            rw [List.getLast?_cons_cons]
            exact hr
        rw [hcons]
        rfl
    · have hd : (fun p => decide (P p)) p = false := by simp [h]
      rw [if_neg h,
        @List.filter_cons_of_neg _ (fun p => decide (P p)) p rest (by simpa using h)]

theorem pickfold_none (P : ℚ × ℚ → Prop) [DecidablePred P] (l : List (ℚ × ℚ)) :
    List.foldl (fun acc p => if P p then some p else acc) none l
      = (l.filter fun p => decide (P p)).getLast? := by
  rw [pickfold_eq]
  cases (l.filter fun p => decide (P p)).getLast? <;> rfl

theorem scanStep_lensOK (t a b f : ℚ) (s : ScanState) (h : lensOK s) :
    lensOK (scanStep t a b f s) := by
  unfold lensOK at h ⊢
  unfold scanStep
  cases hl : s.have_low with
  | false =>
    rw [hl] at h
    by_cases hc : fge (fdiv a b) t = true
    · simp [hl, hc, h]
    · simp [hl, hc, h]
  | true =>
    rw [hl] at h
    by_cases hc : flt (fdiv a b) t = true
    · simp [hl, hc, h]
    · simp [hl, hc, h]

theorem scanFold_lensOK (t : ℚ) :
    ∀ (l : List (ℚ × ℚ × ℚ)) (s : ScanState), lensOK s → lensOK (scanFold t s l)
  | [], _, h => h
  | p :: rest, s, h =>
    scanFold_lensOK t rest (scanStep t p.2.1 p.2.2 p.1 s)
      (scanStep_lensOK t p.2.1 p.2.2 p.1 s h)

theorem cornerScan_lensOK (t : ℚ) (sig_minus noise freqs : List ℚ) :
    lensOK (cornerScan t sig_minus noise freqs) := by
  apply scanFold_lensOK
  simp [lensOK]

/-- While inside a band, bins that pass the threshold leave the scan state
unchanged. -/
theorem scanFold_allpass (t : ℚ) :
    ∀ (l : List (ℚ × ℚ × ℚ)) (s : ScanState),
      (∀ p ∈ l, fge (fdiv p.2.1 p.2.2) t = true) → s.have_low = true →
      scanFold t s l = s
  | [], _, _, _ => rfl
  | p :: rest, s, hall, hin => by
    have hp : fge (fdiv p.2.1 p.2.2) t = true := hall p (List.mem_cons_self p rest)
    have hstep : scanStep t p.2.1 p.2.2 p.1 s = s := by
      unfold scanStep
      simp [hin, fge_imp_not_flt _ _ hp]
    show scanFold t (scanStep t p.2.1 p.2.2 p.1 s) rest = s
    rw [hstep]
    exact scanFold_allpass t rest s (fun q hq => hall q (List.mem_cons_of_mem p hq)) hin

/-- The stream returned by the snapshot loop is the filterMap of the
per-record processing over the snapshot. -/
theorem snrGo_fst (d : DSP) (t mlf mhf : ℚ) :
    ∀ l : List Trace, (snrGo d t mlf mhf l).1 = l.filterMap (procTrace d t mlf mhf)
  | [] => rfl
  | tr :: rest => by
    rw [List.filterMap_cons]
    cases hp : procTrace d t mlf mhf tr with
    | none => simp [snrGo, hp, snrGo_fst d t mlf mhf rest]
    | some tr2 => simp [snrGo, hp, snrGo_fst d t mlf mhf rest]

/-- One log line per rejected record, in snapshot order. -/
theorem snrGo_snd (d : DSP) (t mlf mhf : ℚ) :
    ∀ l : List Trace,
      (snrGo d t mlf mhf l).2
        = (l.filter fun tr => (procTrace d t mlf mhf tr).isNone).map logMsg
  | [] => rfl
  | tr :: rest => by
    cases hp : procTrace d t mlf mhf tr with
    | none => simp [snrGo, hp, snrGo_snd d t mlf mhf rest]
    | some tr2 => simp [snrGo, hp, snrGo_snd d t mlf mhf rest]

/-- Every record of the snapshot is accounted for: kept plus rejected
equals the original count. -/
theorem snrGo_length (d : DSP) (t mlf mhf : ℚ) :
    ∀ l : List Trace,
      (snrGo d t mlf mhf l).1.length + (snrGo d t mlf mhf l).2.length = l.length
  | [] => rfl
  | tr :: rest => by
    cases hp : procTrace d t mlf mhf tr with
    | none =>
      simp only [snrGo, hp, List.length_cons]
      have := snrGo_length d t mlf mhf rest
      omega
    | some tr2 =>
      simp only [snrGo, hp, List.length_cons]
      have := snrGo_length d t mlf mhf rest
      omega

/-- The loop distributes over concatenation of the snapshot. -/
theorem snrGo_append (d : DSP) (t mlf mhf : ℚ) :
    ∀ l1 l2 : List Trace,
      snrGo d t mlf mhf (l1 ++ l2)
        = ((snrGo d t mlf mhf l1).1 ++ (snrGo d t mlf mhf l2).1,
           (snrGo d t mlf mhf l1).2 ++ (snrGo d t mlf mhf l2).2)
  | [], l2 => rfl
  | tr :: rest, l2 => by
    cases hp : procTrace d t mlf mhf tr with
    | none => simp [snrGo, hp, snrGo_append d t mlf mhf rest l2]
    | some tr2 => simp [snrGo, hp, snrGo_append d t mlf mhf rest l2]

/-- A record that survives the curve scan got the snr corner-frequency
result written back. -/
theorem procCurves_cf (t mlf mhf : ℚ) (tr tr2 : Trace) (sig noise freqs : List ℚ)
    (h : procCurves t mlf mhf tr sig noise freqs = some tr2) :
    ∃ lo hi, tr2.cf = some (CF.mk "snr" lo hi) := by
  unfold procCurves at h
  split at h
  · rename_i lo hi heq
    cases h
    exact ⟨lo, hi, rfl⟩
  · exact absurd h (by simp)

/-- A record that survives processing got the snr corner-frequency result
written back. -/
theorem procTrace_cf (d : DSP) (t mlf mhf : ℚ) (tr tr2 : Trace)
    (h : procTrace d t mlf mhf tr = some tr2) :
    ∃ lo hi, tr2.cf = some (CF.mk "snr" lo hi) := by
  unfold procTrace at h
  exact procCurves_cf t mlf mhf tr tr2 _ _ _ h

/-- The doubling loop starting from a power of two lands on a power of two. -/
theorem np2go_pow (n : ℕ) : ∀ (fuel j : ℕ), ∃ k, j ≤ k ∧ np2go fuel n (2 ^ j) = 2 ^ k
  | 0, j => ⟨j, le_refl j, rfl⟩
  | fuel + 1, j => by
    by_cases h : n ≤ 2 ^ j
    · exact ⟨j, le_refl j, by simp only [np2go, if_pos h]⟩
    · have h2 : 2 * 2 ^ j = 2 ^ (j + 1) := by ring
      obtain ⟨k, hk, he⟩ := np2go_pow n fuel (j + 1)
      refine ⟨k, by omega, ?_⟩
      simp only [np2go, if_neg h, h2, he]

/-- With enough fuel the doubling loop reaches the target. -/
theorem np2go_ge (n : ℕ) : ∀ (fuel j : ℕ), n ≤ 2 ^ (j + fuel) → n ≤ np2go fuel n (2 ^ j)
  | 0, j, h => by simpa [np2go] using h
  | fuel + 1, j, h => by
    by_cases hc : n ≤ 2 ^ j
    · simpa [np2go, hc] using hc
    · have h2 : 2 * 2 ^ j = 2 ^ (j + 1) := by ring
      have h' : n ≤ 2 ^ (j + 1 + fuel) := by
        have harr : j + 1 + fuel = j + (fuel + 1) := by omega
        rw [harr]; exact h
      have hrec := np2go_ge n fuel (j + 1) h'
      simpa [np2go, hc, h2] using hrec

/-- The doubling loop never overshoots a power of two that already reaches
the target. -/
theorem np2go_min (n : ℕ) :
    ∀ (fuel j k : ℕ), j ≤ k → n ≤ 2 ^ k → np2go fuel n (2 ^ j) ≤ 2 ^ k
  | 0, j, k, hjk, _ => by
    simpa [np2go] using Nat.pow_le_pow_right (by norm_num) hjk
  | fuel + 1, j, k, hjk, hn => by
    by_cases hc : n ≤ 2 ^ j
    · simpa [np2go, hc] using Nat.pow_le_pow_right (by norm_num) hjk
    · have hjk' : j + 1 ≤ k := by
        by_contra hlt
        push_neg at hlt
        have hpow : 2 ^ k ≤ 2 ^ j := Nat.pow_le_pow_right (by norm_num) (by omega)
        exact hc (le_trans hn hpow)
      have h2 : 2 * 2 ^ j = 2 ^ (j + 1) := by ring
      have hrec := np2go_min n fuel (j + 1) k hjk' hn
      simpa [np2go, hc, h2] using hrec

theorem next_pow_2_ge (n : ℕ) : n ≤ next_pow_2 n := by
  have h := np2go_ge n n 0 (by simpa using le_of_lt (Nat.lt_two_pow n))
  simpa [next_pow_2] using h

theorem next_pow_2_min (n k : ℕ) (h : n ≤ 2 ^ k) : next_pow_2 n ≤ 2 ^ k := by
  have hm := np2go_min n n 0 k (Nat.zero_le k) h
  simpa [next_pow_2] using hm

theorem next_pow_2_pow (n : ℕ) : ∃ k, next_pow_2 n = 2 ^ k := by
  obtain ⟨k, _, he⟩ := np2go_pow n n 0
  exact ⟨k, by simpa [next_pow_2] using he⟩

theorem next_pow_2_mono {a b : ℕ} (h : a ≤ b) : next_pow_2 a ≤ next_pow_2 b := by
  obtain ⟨k, hk⟩ := next_pow_2_pow b
  have hb : b ≤ 2 ^ k := hk ▸ next_pow_2_ge b
  have hmin := next_pow_2_min a k (le_trans h hb)
  rw [hk]
  exact hmin

/-- Reading the frequency grid: bin `i` holds `i * sampling_rate / nfft`. -/
theorem rfftfreq_getD (n : ℕ) (sr : ℚ) (i : ℕ) (hi : i < n / 2 + 1) :
    (rfftfreq n sr).getD i 0 = (i : ℚ) * sr / (n : ℚ) := by
  unfold rfftfreq
  rw [List.getD_eq_getElem?_getD, List.getElem?_map, List.getElem?_range hi]
  rfl

/-! Claim theorems. -/

/-- C1: in the corner scan of `snr`, a (low, high) candidate pair is valid
iff `low <= max_low_freq` and `high > min_high_freq`, and the pair the
validity loop keeps is the last valid pair in discovery order — later
valid pairs override earlier ones. -/
theorem snr_last_valid_pair (max_low_freq min_high_freq : ℚ) (lows highs : List ℚ) :
    pickValid max_low_freq min_high_freq lows highs
      = ((lows.zip highs).filter
          (fun p => decide (p.1 ≤ max_low_freq ∧ min_high_freq < p.2))).getLast? := by
  unfold pickValid
  exact pickfold_none (fun p => p.1 ≤ max_low_freq ∧ min_high_freq < p.2) (lows.zip highs)

/-- C2: after `snr` returns, every surviving record carries a
corner-frequencies result; the output stream is exactly the per-record
processing mapped over a snapshot of the input (no record skipped), and
kept plus removed records account for the whole input. -/
theorem snr_annotate_or_remove (d : DSP) (st : List Trace) (t mlf mhf b : ℚ) :
    (∀ tr2 ∈ (snr d st t mlf mhf b).1, ∃ lo hi, tr2.cf = some (CF.mk "snr" lo hi)) ∧
    (snr d st t mlf mhf b).1 = st.filterMap (procTrace d t mlf mhf) ∧
    (snr d st t mlf mhf b).1.length + (snr d st t mlf mhf b).2.length = st.length := by
  refine ⟨?_, snrGo_fst d t mlf mhf st, snrGo_length d t mlf mhf st⟩
  intro tr2 h2
  have h2' : tr2 ∈ st.filterMap (procTrace d t mlf mhf) := by
    rw [← snrGo_fst d t mlf mhf st]
    exact h2
  obtain ⟨tr, _, hp⟩ := List.mem_filterMap.mp h2'
  exact procTrace_cf d t mlf mhf tr tr2 hp

/-- C2 witness. -/
theorem snr_annotate_or_remove_witness :
    ∃ lo hi, trOKres.cf = some (CF.mk "snr" lo hi) :=
  (snr_annotate_or_remove dspOK [trOK] 3 (1/10) 5 20).1 trOKres
    (by with_unfolding_all decide)

/-- C3 counterexample: the claim that the zero-noise division is guarded
and behaves as +infinity (always passing the threshold) is false on the
code: the unguarded IEEE division gives NaN at a bin whose de-noised
signal is also 0, that bin fails the `>=` test, and the scan records no
corner there. -/
theorem ratio_zero_noise_unguarded_cex :
    fdiv 0 0 ≠ specGuardedDiv 0 0 ∧
    fge (fdiv 0 0) 3 = false ∧
    fge (specGuardedDiv 0 0) 3 = true ∧
    (cornerScan 3 [0] [0] [0]).lows = [] := by
  with_unfolding_all decide

/-- C3 amended: the division is not guarded; with IEEE semantics a
zero-noise bin gives ratio +inf when the de-noised signal is positive
(the bin passes the threshold test), -inf when negative, and NaN when it
is 0, in which case both the `>=`-threshold and `<`-threshold tests are
false; no error is raised (the scan is total). -/
theorem ratio_zero_noise_ieee (a t : ℚ) :
    (0 < a → fdiv a 0 = FVal.posInf ∧ fge (fdiv a 0) t = true) ∧
    (a < 0 → fdiv a 0 = FVal.negInf ∧ fge (fdiv a 0) t = false ∧ flt (fdiv a 0) t = true) ∧
    (a = 0 → fdiv a 0 = FVal.nan ∧ fge (fdiv a 0) t = false ∧ flt (fdiv a 0) t = false) := by
  refine ⟨?_, ?_, ?_⟩
  · intro h
    unfold fdiv
    rw [if_pos rfl, if_pos h]
    exact ⟨rfl, rfl⟩
  · intro h
    unfold fdiv
    rw [if_pos rfl, if_neg (not_lt.mpr (le_of_lt h)), if_pos h]
    exact ⟨rfl, rfl, rfl⟩
  · intro h
    unfold fdiv
    rw [if_pos rfl, if_neg (by rw [h]; exact lt_irrefl 0),
      if_neg (by rw [h]; exact lt_irrefl 0)]
    exact ⟨rfl, rfl, rfl⟩

/-- C3 witness. -/
theorem ratio_zero_noise_ieee_witness :
    (0 < (1 : ℚ)) ∧ fdiv 1 0 = FVal.posInf ∧ fge (fdiv 1 0) 3 = true :=
  ⟨by norm_num, ((ratio_zero_noise_ieee 1 3).1 (by norm_num)).1,
    ((ratio_zero_noise_ieee 1 3).1 (by norm_num)).2⟩

/-- C4: a record with no qualifying band is removed from the collection
with exactly one informational log message identifying it, and the rest of
the collection is unchanged by that record's rejection. -/
theorem snr_reject_removes_and_logs (d : DSP) (t mlf mhf b : ℚ)
    (pre post : List Trace) (tr : Trace)
    (h : procTrace d t mlf mhf tr = none) :
    (snr d (pre ++ tr :: post) t mlf mhf b).1 = (snr d (pre ++ post) t mlf mhf b).1 ∧
    (snr d (pre ++ tr :: post) t mlf mhf b).2
      = (snr d pre t mlf mhf b).2 ++ logMsg tr :: (snr d post t mlf mhf b).2 := by
  have h1 := snrGo_append d t mlf mhf pre (tr :: post)
  have h2 := snrGo_append d t mlf mhf pre post
  have hcons1 : (snrGo d t mlf mhf (tr :: post)).1 = (snrGo d t mlf mhf post).1 := by
    simp [snrGo, h]
  have hcons2 : (snrGo d t mlf mhf (tr :: post)).2
      = logMsg tr :: (snrGo d t mlf mhf post).2 := by
    simp [snrGo, h]
  constructor
  · show (snrGo d t mlf mhf (pre ++ tr :: post)).1 = (snrGo d t mlf mhf (pre ++ post)).1
    rw [h1, h2]
    simp [hcons1]
  · show (snrGo d t mlf mhf (pre ++ tr :: post)).2
      = (snrGo d t mlf mhf pre).2 ++ logMsg tr :: (snrGo d t mlf mhf post).2
    rw [h1]
    simp [hcons2]

/-- C4 witness. -/
theorem snr_reject_removes_and_logs_witness :
    procTrace dsp0 3 (1/10) 5 tr0 = none ∧
    (snr dsp0 [tr0] 3 (1/10) 5 20).2 = [logMsg tr0] := by
  constructor
  · with_unfolding_all decide
  · have h := (snr_reject_removes_and_logs dsp0 3 (1/10) 5 20 [] [] tr0
      (by with_unfolding_all decide)).2
    simpa [snr, snrGo] using h

/-- C5: on the 11-bin concrete scenario (noise constant 1, signal-minus-
noise 0,0,5,5,5,5,5,0,0,0,0; threshold 3, max_low_freq 0.3,
min_high_freq 0.5) the scan selects low corner 0.2 and high corner 0.7,
and the record gets the result type "snr", highpass 0.2, lowpass 0.7. -/
theorem snr_concrete_scenario :
    procCurves 3 (3/10) (1/2) tr5 sig11 noise11 freqs11
      = some (_update_params tr5 (CF.mk "snr" (1/5) (7/10))) := by
  with_unfolding_all decide

/-- C6: if the scan ends still inside a band, the maximum grid frequency is
appended as the final high; and if the ratio passes the threshold at every
bin, the single candidate low is the first grid frequency and the closed
high list is exactly the maximum grid frequency. -/
theorem scan_band_closing (t : ℚ) (sig_minus noise freqs : List ℚ)
    (hs : sig_minus.length = freqs.length) (hn : noise.length = freqs.length) :
    ((cornerScan t sig_minus noise freqs).have_low = true →
      closeHighs freqs (cornerScan t sig_minus noise freqs).lows
          (cornerScan t sig_minus noise freqs).highs
        = (cornerScan t sig_minus noise freqs).highs ++ [listMax freqs]) ∧
    (∀ f0 frest, freqs = f0 :: frest →
      (∀ p ∈ freqs.zip (sig_minus.zip noise), fge (fdiv p.2.1 p.2.2) t = true) →
      (cornerScan t sig_minus noise freqs).lows = [f0] ∧
      closeHighs freqs (cornerScan t sig_minus noise freqs).lows
          (cornerScan t sig_minus noise freqs).highs = [listMax freqs]) := by
  constructor
  · intro hin
    have hlen := cornerScan_lensOK t sig_minus noise freqs
    unfold lensOK at hlen
    rw [hin] at hlen
    unfold closeHighs
    rw [if_pos (by simp at hlen; omega)]
  · intro f0 frest hf hall
    subst hf
    cases sig_minus with
    | nil => simp at hs
    | cons a arest =>
      cases noise with
      | nil => simp at hn
      | cons b brest =>
        have hzip : (f0 :: frest).zip ((a :: arest).zip (b :: brest))
            = (f0, a, b) :: frest.zip (arest.zip brest) := rfl
        have hp0 : fge (fdiv a b) t = true :=
          hall (f0, a, b) (hzip ▸ List.mem_cons_self _ _)
        have hstep : scanStep t a b f0 (ScanState.mk [] [] false)
            = ScanState.mk [f0] [] true := by
          unfold scanStep
          simp [hp0]
        have hscan : cornerScan t (a :: arest) (b :: brest) (f0 :: frest)
            = ScanState.mk [f0] [] true := by
          unfold cornerScan
          rw [hzip]
          show scanFold t (scanStep t a b f0 (ScanState.mk [] [] false))
            (frest.zip (arest.zip brest)) = ScanState.mk [f0] [] true
          rw [hstep]
          exact scanFold_allpass t (frest.zip (arest.zip brest)) _
            (fun p hp => hall p (hzip ▸ List.mem_cons_of_mem _ hp)) rfl
        rw [hscan]
        refine ⟨rfl, ?_⟩
        unfold closeHighs
        simp

/-- C6 witness. -/
theorem scan_band_closing_witness :
    (cornerScan 3 [5, 5] [1, 1] [0, 1/10]).lows = [0] ∧
    closeHighs [0, 1/10] (cornerScan 3 [5, 5] [1, 1] [0, 1/10]).lows
        (cornerScan 3 [5, 5] [1, 1] [0, 1/10]).highs = [listMax [0, 1/10]] :=
  (scan_band_closing 3 [5, 5] [1, 1] [0, 1/10] (by decide) (by decide)).2
    0 [1/10] rfl (by with_unfolding_all decide)

/-- C7: the FFT size `max (next_pow_2 signal) (next_pow_2 noise)` equals
the smallest power of two at or above the larger of the two windows'
sample counts. -/
theorem nfft_shared_pow2 (a b : ℕ) (ha : 1 ≤ a) (hb : 1 ≤ b) :
    max (next_pow_2 a) (next_pow_2 b) = next_pow_2 (max a b) ∧
    max a b ≤ next_pow_2 (max a b) ∧
    ∀ j, max a b ≤ 2 ^ j → next_pow_2 (max a b) ≤ 2 ^ j := by
  refine ⟨?_, next_pow_2_ge _, fun j hj => next_pow_2_min _ j hj⟩
  rcases le_total a b with h | h
  · rw [Nat.max_eq_right h, Nat.max_eq_right (next_pow_2_mono h)]
  · rw [Nat.max_eq_left h, Nat.max_eq_left (next_pow_2_mono h)]

/-- C7 witness. -/
theorem nfft_shared_pow2_witness :
    (1 ≤ 3 ∧ 1 ≤ 9) ∧ max (next_pow_2 3) (next_pow_2 9) = next_pow_2 (max 3 9) :=
  ⟨⟨by decide, by decide⟩, (nfft_shared_pow2 3 9 (by decide) (by decide)).1⟩

/-- C8: for an even positive FFT size, the frequency grid has length
`nfft / 2 + 1`, starts at 0, ends at the Nyquist frequency
`sampling_rate / 2`, is evenly spaced with step `sampling_rate / nfft`,
and is identical for any two windows estimated with the same FFT size and
sampling rate, regardless of the windows' lengths. -/
theorem rfftfreq_grid (n : ℕ) (sr : ℚ) (d : DSP) (w1 w2 : List ℚ) (k : ℕ)
    (hn : 0 < n) (he : n % 2 = 0) (hk : k < n / 2) :
    (rfftfreq n sr).length = n / 2 + 1 ∧
    (rfftfreq n sr).getD 0 0 = 0 ∧
    (rfftfreq n sr).getD (n / 2) 0 = sr / 2 ∧
    (rfftfreq n sr).getD (k + 1) 0 - (rfftfreq n sr).getD k 0 = sr / (n : ℚ) ∧
    (fft_smooth d w1 sr n).2 = (fft_smooth d w2 sr n).2 := by
  have hn' : ((n : ℚ)) ≠ 0 := by
    exact_mod_cast Nat.pos_iff_ne_zero.mp hn
  refine ⟨by simp [rfftfreq], ?_, ?_, ?_, rfl⟩
  · rw [rfftfreq_getD n sr 0 (by omega)]
    simp
  · rw [rfftfreq_getD n sr (n / 2) (by omega)]
    have h2 : n / 2 * 2 = n := Nat.div_mul_cancel (Nat.dvd_of_mod_eq_zero he)
    have hm : ((n / 2 : ℕ) : ℚ) * 2 = (n : ℚ) := by
      exact_mod_cast congrArg (Nat.cast : ℕ → ℚ) h2
    rw [← hm]
    have hm0 : ((n / 2 : ℕ) : ℚ) ≠ 0 := by
      have hpos : 0 < n / 2 := Nat.div_pos (by omega) (by norm_num)
      exact_mod_cast Nat.pos_iff_ne_zero.mp hpos
    field_simp
    ring
  · rw [rfftfreq_getD n sr (k + 1) (by omega), rfftfreq_getD n sr k (by omega)]
    push_cast
    field_simp
    ring

/-- C8 witness. -/
theorem rfftfreq_grid_witness :
    (rfftfreq 4 100).getD 2 0 = 100 / 2 ∧
    (fft_smooth dsp0 [1] 100 4).2 = (fft_smooth dsp0 [2, 3] 100 4).2 :=
  ⟨(rfftfreq_grid 4 100 dsp0 [1] [2, 3] 1 (by decide) (by decide) (by decide)).2.2.1,
   (rfftfreq_grid 4 100 dsp0 [1] [2, 3] 1 (by decide) (by decide) (by decide)).2.2.2.2⟩

/-- C9: `constant` attaches the configured highpass/lowpass to every
record of any collection (including the empty one), removing none. -/
theorem constant_attaches_config (st : List Trace) (highpass lowpass : ℚ) :
    (constant st highpass lowpass).length = st.length ∧
    ∀ tr2 ∈ constant st highpass lowpass,
      tr2.cf = some (CF.mk "constant" highpass lowpass) := by
  induction st with
  | nil =>
    refine ⟨rfl, ?_⟩
    intro tr2 h2
    simp [constant] at h2
  | cons tr rest ih =>
    refine ⟨by simp [constant, ih.1], ?_⟩
    intro tr2 h2
    rcases List.mem_cons.mp h2 with heq | hm
    · rw [heq]
      rfl
    · exact ih.2 tr2 hm

/-- C9 witness. -/
theorem constant_attaches_config_witness :
    (_update_params tr0 (CF.mk "constant" (1/2) (3/4))).cf
      = some (CF.mk "constant" (1/2) (3/4)) :=
  (constant_attaches_config [tr0] (1/2) (3/4)).2 _ (by with_unfolding_all decide)

/-- C10: the `bandwidth` argument of `snr` has no effect on the result —
the body never reads it and the smoothing inside `fft_smooth` always uses
the hardcoded coefficient 20 — so two calls differing only in bandwidth
return identical collections and logs. -/
theorem snr_bandwidth_irrelevant (d : DSP) (st : List Trace) (t mlf mhf b1 b2 : ℚ) :
    snr d st t mlf mhf b1 = snr d st t mlf mhf b2 := rfl

end GM
